import Mathlib

/-
Shallow embedding of the ts-queue library: the synchronous `Queue<T>`
(src/queue.ts) and the asynchronous `PromiseQueue<T>` (src/promise-queue).

Modelling conventions:
* JS arrays become `List`; `splice(i, 1)` becomes `List.eraseIdx i` plus the
  removed element, `splice(start, n)` becomes `take`/`drop` decompositions.
* A callable plus its bound arguments (`func(...args)`) is modelled as a pure
  function from the argument list to an `Except` outcome: a resolved value
  (`Except.ok`) or a rejection (`Except.error`).  Each work item additionally
  carries an `id : Nat` used purely as instrumentation: every operation
  returns, besides its result and the successor state, the list of ids of
  the work items whose callables it invoked, so that "the callable is
  invoked exactly once" is a statement about that trace.  The id has no
  behavioural role.
* `async` control flow is collapsed to deterministic sequential evaluation;
  the one interleaving property (overlapping `peek` calls) is treated with
  an explicit two-phase decomposition of `peek` at its single `await` point.
* Thrown JS values are `Except.error`; the distinguished empty-queue error
  objects are modelled by dedicated constructors.
-/

namespace TsQueue

/-- Untyped JS runtime values, used to model the dynamic `Array.isArray`
dispatch inside `Queue.add` (src/queue.ts lines 31-37). -/
inductive JSVal where
  | num (n : Int) : JSVal
  | str (s : String) : JSVal
  | arr (elems : List JSVal) : JSVal
deriving Repr

/-- The thrown value of the synchronous queue's required reads: models the
exported `QueueEmptyError` object `{ name: 'QueueEmpty', message: 'The queue is empty.' }`. -/
inductive SyncError where
  | queueEmpty : SyncError
deriving Repr, DecidableEq

/-- State of the synchronous `Queue<T>`: the backing array `_array` and the
FIFO/FILO flag `_fifo` (default `true`). -/
structure Queue (T : Type) where
  _array : List T
  _fifo : Bool
deriving Repr

namespace Queue

variable {T : Type}

/-- The constructor `new Queue(initial?)`: backing array from the optional
initial elements, FIFO mode. -/
def new (initial : List T) : Queue T :=
  { _array := initial, _fifo := true }

/-- `nextIndex()`: index of the head under the current mode (0 for FIFO,
`length - 1` for FILO). -/
def nextIndex (q : Queue T) : Nat :=
  if q._fifo then 0 else q._array.length - 1

theorem nextIndex_lt_sync {q : Queue T} (h : q._array.length ≠ 0) :
    q.nextIndex < q._array.length := by
  unfold nextIndex
  split <;> omega

/-- `add(item)` on the untyped runtime value domain: an array argument is
flattened element-by-element via `push.apply`, anything else is pushed as a
single item.  This is the runtime `Array.isArray` dispatch of `Queue.add`. -/
def addValue (a : List JSVal) (item : JSVal) : List JSVal :=
  match item with
  | JSVal.arr xs => a ++ xs
  | x => a ++ [x]

/-- `clear()`: drop all elements, keep the mode. -/
def clear (q : Queue T) : Queue T :=
  { q with _array := [] }

/-- `element()`: head under the current mode, or throw `QueueEmptyError` when
the length is zero. -/
def element (q : Queue T) : Except SyncError T :=
  if h : q._array.length = 0 then Except.error SyncError.queueEmpty
  else Except.ok (q._array.get ⟨q.nextIndex, nextIndex_lt_sync h⟩)

/-- `peek()`: head under the current mode, or `null` when empty. -/
def peek (q : Queue T) : Option T :=
  if h : q._array.length = 0 then none
  else some (q._array.get ⟨q.nextIndex, nextIndex_lt_sync h⟩)

/-- `remove()`: splice out and return the head, or throw `QueueEmptyError`
when the length is zero. -/
def remove (q : Queue T) : Except SyncError (T × Queue T) :=
  if h : q._array.length = 0 then Except.error SyncError.queueEmpty
  else Except.ok (q._array.get ⟨q.nextIndex, nextIndex_lt_sync h⟩,
    { q with _array := q._array.eraseIdx q.nextIndex })

/-- `poll()`: splice out and return the head, or `null` when empty. -/
def poll (q : Queue T) : Option T × Queue T :=
  if h : q._array.length = 0 then (none, q)
  else (some (q._array.get ⟨q.nextIndex, nextIndex_lt_sync h⟩),
    { q with _array := q._array.eraseIdx q.nextIndex })

/-- `size()`. -/
def size (q : Queue T) : Nat := q._array.length

/-- `toArray()`: the live backing array. -/
def toArray (q : Queue T) : List T := q._array

/-- `useFIFO()`. -/
def useFIFO (q : Queue T) : Queue T := { q with _fifo := true }

/-- `useFILO()`. -/
def useFILO (q : Queue T) : Queue T := { q with _fifo := false }

/-- Repeatedly `poll()` with explicit fuel; `drain` below applies it with
fuel equal to the current size, modelling "repeated poll() until empty". -/
def drainAux : Nat → Queue T → List T
  | 0, _ => []
  | n + 1, q =>
    match q.poll with
    | (none, _) => []
    | (some x, q1) => x :: drainAux n q1

/-- The sequence of values obtained by calling `poll()` `size()` times. -/
def drain (q : Queue T) : List T := drainAux q._array.length q

end Queue

/-- A queued unit of deferred work: `{ func, args }` as pushed by
`PromiseQueue.add`, plus the instrumentation id (see header). -/
structure WorkItem (β ε α : Type) where
  id : Nat
  func : List β → Except ε α
  args : List β

/-- `func(...args)`: evaluating the callable on its bound arguments. -/
def invoke {β ε α : Type} (it : WorkItem β ε α) : Except ε α :=
  it.func it.args

/-- Values thrown by `PromiseQueue` operations: either a rejection value of
the user's callable, or the distinguished `PromiseQueueEmptyError` object. -/
inductive PQError (ε : Type) where
  | user (e : ε) : PQError ε
  | promiseQueueEmpty : PQError ε
deriving DecidableEq

/-- State of `PromiseQueue<T>`: the entry list `_array`, the single-slot
cache (`_cached`, `_result`, `_error`) and the mode flag `_fifo`. -/
structure PromiseQueue (β ε α : Type) where
  _array : List (WorkItem β ε α)
  _cached : Bool
  _result : Option α
  _error : Option ε
  _fifo : Bool

/-- Result of a `PromiseQueue` operation: the returned/thrown value, the
successor state, and the instrumentation trace of invoked work-item ids. -/
structure PQRes (σ ρ : Type) where
  out : ρ
  st : σ
  trace : List Nat

namespace PromiseQueue

variable {β ε α : Type}

/-- The constructor `new PromiseQueue()`: empty, no cache, FIFO. -/
def new : PromiseQueue β ε α :=
  { _array := [], _cached := false, _result := none, _error := none, _fifo := true }

/-- `nextIndex()`: head index under the current mode. -/
def nextIndex (q : PromiseQueue β ε α) : Nat :=
  if q._fifo then 0 else q._array.length - 1

theorem nextIndex_lt {q : PromiseQueue β ε α} (h : ¬ q._array.length = 0) :
    q.nextIndex < q._array.length := by
  unfold nextIndex
  split <;> omega

/-- `nextBatchIndex(size)`: splice start for a batch,
`Math.max(0, length - size)` under FILO, 0 under FIFO. -/
def nextBatchIndex (q : PromiseQueue β ε α) (size : Int) : Nat :=
  if q._fifo then 0 else ((q._array.length : Int) - size).toNat

/-- `add(func, ...args)`: push `{ func, args }` at the tail; the `id` is
instrumentation only (see header). -/
def add (q : PromiseQueue β ε α) (id : Nat) (func : List β → Except ε α)
    (args : List β) : PromiseQueue β ε α :=
  { q with _array := q._array ++ [⟨id, func, args⟩] }

/-- `clear()`: drop all entries and reset the whole cache slot. -/
def clear (q : PromiseQueue β ε α) : PromiseQueue β ε α :=
  { q with _array := [], _cached := false, _result := none, _error := none }

/-- `peek()`: if a cache is present, rethrow the cached error or return the
cached result; otherwise, if the queue is non-empty, invoke the head callable,
cache the outcome and return/throw it; otherwise return `null`. -/
def peek (q : PromiseQueue β ε α) :
    PQRes (PromiseQueue β ε α) (Except (PQError ε) (Option α)) :=
  if q._cached then
    match q._error with
    | some e => ⟨Except.error (PQError.user e), q, []⟩
    | none => ⟨Except.ok q._result, q, []⟩
  else if h : q._array.length = 0 then ⟨Except.ok none, q, []⟩
  else
    let it := q._array.get ⟨q.nextIndex, nextIndex_lt h⟩
    match invoke it with
    | Except.ok v =>
      ⟨Except.ok (some v),
        { q with _result := some v, _error := none, _cached := true }, [it.id]⟩
    | Except.error e =>
      ⟨Except.error (PQError.user e),
        { q with _cached := true, _result := none, _error := some e }, [it.id]⟩

/-- `element()`: `peek()`, then throw `PromiseQueueEmptyError` if it
returned `null`. -/
def element (q : PromiseQueue β ε α) :
    PQRes (PromiseQueue β ε α) (Except (PQError ε) α) :=
  let r := q.peek
  match r.out with
  | Except.ok none => ⟨Except.error PQError.promiseQueueEmpty, r.st, r.trace⟩
  | Except.ok (some v) => ⟨Except.ok v, r.st, r.trace⟩
  | Except.error e => ⟨Except.error e, r.st, r.trace⟩

/-- `poll()`: `null` on an empty queue; otherwise splice out the head and
either consume the cache (clearing only the `_cached` flag, exactly as the
source does) or invoke the removed entry's callable. -/
def poll (q : PromiseQueue β ε α) :
    PQRes (PromiseQueue β ε α) (Except (PQError ε) (Option α)) :=
  if h : q._array.length = 0 then ⟨Except.ok none, q, []⟩
  else
    let it := q._array.get ⟨q.nextIndex, nextIndex_lt h⟩
    let rest := q._array.eraseIdx q.nextIndex
    if q._cached then
      let q1 := { q with _array := rest, _cached := false }
      match q._error with
      | some e => ⟨Except.error (PQError.user e), q1, []⟩
      | none => ⟨Except.ok q._result, q1, []⟩
    else
      match invoke it with
      | Except.ok v => ⟨Except.ok (some v), { q with _array := rest }, [it.id]⟩
      | Except.error e =>
        ⟨Except.error (PQError.user e), { q with _array := rest }, [it.id]⟩

/-- `remove()`: `poll()`, then throw `PromiseQueueEmptyError` if it
returned `null`. -/
def remove (q : PromiseQueue β ε α) :
    PQRes (PromiseQueue β ε α) (Except (PQError ε) α) :=
  let r := q.poll
  match r.out with
  | Except.ok none => ⟨Except.error PQError.promiseQueueEmpty, r.st, r.trace⟩
  | Except.ok (some v) => ⟨Except.ok v, r.st, r.trace⟩
  | Except.error e => ⟨Except.error e, r.st, r.trace⟩

/-- `Promise.all` over already-determined outcomes: the list of values if
all succeed, otherwise a rejection.  Real `Promise.all` rejects with the
temporally first rejection; with evaluation collapsed to deterministic
outcomes this is modelled as the leftmost rejection. -/
def promiseAll {ε α : Type} : List (Except ε α) → Except ε (List α)
  | [] => Except.ok []
  | Except.ok v :: rest => (promiseAll rest).map (fun vs => v :: vs)
  | Except.error e :: _ => Except.error e

/-- `batch(size)`: empty result on an empty queue or `size < 1`; otherwise
splice `size` entries starting at `nextBatchIndex(size)` and evaluate them
all (the cache slot is neither consulted nor modified). -/
def batch (q : PromiseQueue β ε α) (size : Int) :
    PQRes (PromiseQueue β ε α) (Except (PQError ε) (List α)) :=
  if q._array.length = 0 ∨ size < 1 then ⟨Except.ok [], q, []⟩
  else
    let start := q.nextBatchIndex size
    let n := size.toNat
    let sel := (q._array.drop start).take n
    let rest := q._array.take start ++ q._array.drop (start + n)
    ⟨(promiseAll (sel.map invoke)).mapError PQError.user,
      { q with _array := rest }, sel.map (fun it => it.id)⟩

/-- `size()`. -/
def size (q : PromiseQueue β ε α) : Nat := q._array.length

/-- `toArray()`. -/
def toArray (q : PromiseQueue β ε α) : List (WorkItem β ε α) := q._array

/-- `useFIFO()`. -/
def useFIFO (q : PromiseQueue β ε α) : PromiseQueue β ε α := { q with _fifo := true }

/-- `useFILO()`. -/
def useFILO (q : PromiseQueue β ε α) : PromiseQueue β ε α := { q with _fifo := false }

/-- One `next()` step of the async iterator: `done = size() == 0` computed
first, then the value and effects of `poll()`. -/
def iterNext (q : PromiseQueue β ε α) :
    PQRes (PromiseQueue β ε α) (Bool × Except (PQError ε) (Option α)) :=
  let done := q.size = 0
  let r := q.poll
  ⟨(decide done, r.out), r.st, r.trace⟩

/-- The iterator's `return()` handler, run when the consumer terminates the
iteration early: it performs a `peek()` and reports its value with
`done: true`. -/
def iterReturn (q : PromiseQueue β ε α) :
    PQRes (PromiseQueue β ε α) (Except (PQError ε) (Option α)) :=
  let r := q.peek
  ⟨r.out, r.st, r.trace⟩

/-- State and accumulated invocation trace after `k` iterator `next()`
steps. -/
def iterSteps : PromiseQueue β ε α → Nat → PromiseQueue β ε α × List Nat
  | q, 0 => (q, [])
  | q, k + 1 =>
    let r := iterNext q
    let rest := iterSteps r.st k
    (rest.1, r.trace ++ rest.2)

/-- Early termination of a `for await` loop after `k` yielded values: `k`
`next()` steps followed by the `return()` handler. -/
def earlyTermination (q : PromiseQueue β ε α) (k : Nat) :
    PromiseQueue β ε α × List Nat :=
  let s := iterSteps q k
  let r := iterReturn s.1
  (r.st, s.2 ++ r.trace)

/-- The state the head's evaluation leaves in the cache slot: exactly the
assignments `peek` performs on success and on failure. -/
def cachedState (q : PromiseQueue β ε α) (it : WorkItem β ε α) :
    PromiseQueue β ε α :=
  match invoke it with
  | Except.ok v => { q with _result := some v, _error := none, _cached := true }
  | Except.error e => { q with _cached := true, _result := none, _error := some e }

/-- The value `peek` (and a cache-less `poll`) returns/throws for a given
work item: the resolved value, or the rethrown rejection. -/
def directOut (it : WorkItem β ε α) : Except (PQError ε) (Option α) :=
  match invoke it with
  | Except.ok v => Except.ok (some v)
  | Except.error e => Except.error (PQError.user e)

/-- The value `element` returns/throws for a given work item. -/
def elementOut (it : WorkItem β ε α) : Except (PQError ε) α :=
  match invoke it with
  | Except.ok v => Except.ok v
  | Except.error e => Except.error (PQError.user e)

/-- A non-removing read: `peek()` or `element()`. -/
inductive ReadOp where
  | peekR : ReadOp
  | elementR : ReadOp

/-- State and trace effect of one read. -/
def readStep (q : PromiseQueue β ε α) : ReadOp → PromiseQueue β ε α × List Nat
  | ReadOp.peekR => ((q.peek).st, (q.peek).trace)
  | ReadOp.elementR => ((q.element).st, (q.element).trace)

/-- State and accumulated invocation trace of a sequence of consecutive
`peek`/`element` calls with nothing in between. -/
def runReads (q : PromiseQueue β ε α) : List ReadOp → PromiseQueue β ε α × List Nat
  | [] => (q, [])
  | op :: ops =>
    let s := readStep q op
    let rest := runReads s.1 ops
    (rest.1, s.2 ++ rest.2)

/-- The public operations of the Deferred Work Queue, as state transformers
(returned values are dropped; traces are kept separately below). -/
inductive POp (β ε α : Type) where
  | addP (id : Nat) (func : List β → Except ε α) (args : List β) : POp β ε α
  | peekP : POp β ε α
  | elementP : POp β ε α
  | pollP : POp β ε α
  | removeP : POp β ε α
  | batchP (size : Int) : POp β ε α
  | clearP : POp β ε α
  | useFIFOP : POp β ε α
  | useFILOP : POp β ε α

/-- Successor state of one public operation. -/
def applyPOp (q : PromiseQueue β ε α) : POp β ε α → PromiseQueue β ε α
  | POp.addP id f as => q.add id f as
  | POp.peekP => (q.peek).st
  | POp.elementP => (q.element).st
  | POp.pollP => (q.poll).st
  | POp.removeP => (q.remove).st
  | POp.batchP n => (q.batch n).st
  | POp.clearP => q.clear
  | POp.useFIFOP => q.useFIFO
  | POp.useFILOP => q.useFILO

/-- State reached from `q` by a sequence of public operations. -/
def runPOps (q : PromiseQueue β ε α) : List (POp β ε α) → PromiseQueue β ε α
  | [] => q
  | op :: ops => runPOps (applyPOp q op) ops

/-- The restricted operations under which the head-cache invariant is
provable: everything public except `batch`, `useFIFO` and `useFILO`. -/
def FifoOnly (op : POp β ε α) : Prop :=
  match op with
  | POp.batchP _ => False
  | POp.useFIFOP => False
  | POp.useFILOP => False
  | _ => True

/-- The cache slot is well-formed: when `_cached` is set, it holds either a
success (`_result` set, `_error` clear) or a failure (`_error` set,
`_result` clear). -/
def wf (q : PromiseQueue β ε α) : Prop :=
  q._cached = true →
    ((∃ v, q._result = some v ∧ q._error = none) ∨
     (q._result = none ∧ ∃ e, q._error = some e))

/-- The head-cache invariant claimed by the specification: whenever the
cache slot is present, the queue has a head entry at the access index and
the cached outcome is the outcome of invoking exactly that entry. -/
def headCacheInv (q : PromiseQueue β ε α) : Prop :=
  q._cached = true →
    ∃ it, q._array.get? q.nextIndex = some it ∧
      ((∃ v, q._result = some v ∧ q._error = none ∧ invoke it = Except.ok v) ∨
       (q._result = none ∧ ∃ e, q._error = some e ∧ invoke it = Except.error e))

/-- First phase of `peek`: everything that runs synchronously before the
`await` on `func(...args)`.  Either the call finishes without suspending
(cache hit or empty queue) or the head callable has been invoked and the
caller is suspended awaiting its settlement; the queue state is unchanged
until the second phase runs. -/
inductive PeekPhase (ε α : Type) where
  | immediate (out : Except (PQError ε) (Option α)) : PeekPhase ε α
  | started (id : Nat) (pending : Except ε α) : PeekPhase ε α

/-- The synchronous prefix of `peek()` up to its `await`, with the trace of
invocations it performs. -/
def peekStart (q : PromiseQueue β ε α) : PeekPhase ε α × List Nat :=
  if q._cached then
    match q._error with
    | some e => (PeekPhase.immediate (Except.error (PQError.user e)), [])
    | none => (PeekPhase.immediate (Except.ok q._result), [])
  else if h : q._array.length = 0 then (PeekPhase.immediate (Except.ok none), [])
  else
    let it := q._array.get ⟨q.nextIndex, nextIndex_lt h⟩
    (PeekPhase.started it.id (invoke it), [it.id])

/-- The continuation of `peek()` after its `await` settles: store the
outcome in the cache slot and return/throw it. -/
def peekFinish (q : PromiseQueue β ε α) (r : Except ε α) :
    Except (PQError ε) (Option α) × PromiseQueue β ε α :=
  match r with
  | Except.ok v =>
    (Except.ok (some v), { q with _result := some v, _error := none, _cached := true })
  | Except.error e =>
    (Except.error (PQError.user e),
      { q with _cached := true, _result := none, _error := some e })

/-- Two overlapping `peek` calls: the second starts before the first's
awaited evaluation settles (the event loop runs: start₁, start₂, finish₁,
finish₂).  Returns both outputs, the final state, and the combined
invocation trace. -/
def twoOverlappingPeeks (q : PromiseQueue β ε α) :
    Except (PQError ε) (Option α) × Except (PQError ε) (Option α) ×
      PromiseQueue β ε α × List Nat :=
  match peekStart q with
  | (PeekPhase.immediate o1, t1) =>
    match peekStart q with
    | (PeekPhase.immediate o2, t2) => (o1, o2, q, t1 ++ t2)
    | (PeekPhase.started _ p2, t2) =>
      let f2 := peekFinish q p2
      (o1, f2.1, f2.2, t1 ++ t2)
  | (PeekPhase.started _ p1, t1) =>
    match peekStart q with
    | (PeekPhase.immediate o2, t2) =>
      let f1 := peekFinish q p1
      (f1.1, o2, f1.2, t1 ++ t2)
    | (PeekPhase.started _ p2, t2) =>
      let f1 := peekFinish q p1
      let f2 := peekFinish f1.2 p2
      (f1.1, f2.1, f2.2, t1 ++ t2)

theorem get_of_get? {l : List (WorkItem β ε α)} {i : Nat} {it : WorkItem β ε α}
    (hget : l.get? i = some it) (h : i < l.length) : l.get ⟨i, h⟩ = it := by
  have h2 := List.get?_eq_get h
  exact (Option.some.inj (hget.symm.trans h2)).symm

theorem length_ne_zero_of_get? {l : List (WorkItem β ε α)} {i : Nat} {it : WorkItem β ε α}
    (hget : l.get? i = some it) : ¬ l.length = 0 := by
  intro h0
  rw [List.length_eq_zero] at h0
  rw [h0] at hget
  simp at hget

theorem peek_fresh {q : PromiseQueue β ε α} {it : WorkItem β ε α}
    (hc : q._cached = false) (hget : q._array.get? q.nextIndex = some it) :
    q.peek = ⟨directOut it, cachedState q it, [it.id]⟩ := by
  have hlen : ¬ q._array.length = 0 := length_ne_zero_of_get? hget
  unfold peek
  rw [hc]
  simp only [Bool.false_eq_true, if_false]
  rw [dif_neg hlen]
  rw [get_of_get? hget (nextIndex_lt hlen)]
  unfold directOut cachedState
  cases hinv : invoke it <;> simp

theorem peek_cached_err {q : PromiseQueue β ε α} {e : ε}
    (hc : q._cached = true) (he : q._error = some e) :
    q.peek = ⟨Except.error (PQError.user e), q, []⟩ := by
  unfold peek
  rw [hc, he]
  rfl

theorem peek_cached_ok {q : PromiseQueue β ε α}
    (hc : q._cached = true) (he : q._error = none) :
    q.peek = ⟨Except.ok q._result, q, []⟩ := by
  unfold peek
  rw [hc, he]
  rfl

theorem peek_empty {q : PromiseQueue β ε α}
    (hc : q._cached = false) (h : q._array.length = 0) :
    q.peek = ⟨Except.ok none, q, []⟩ := by
  unfold peek
  rw [hc]
  simp only [Bool.false_eq_true, if_false]
  rw [dif_pos h]

theorem poll_empty {q : PromiseQueue β ε α} (h : q._array.length = 0) :
    q.poll = ⟨Except.ok none, q, []⟩ := by
  unfold poll
  rw [dif_pos h]

theorem poll_cached_err {q : PromiseQueue β ε α} {e : ε}
    (hc : q._cached = true) (he : q._error = some e) (hlen : ¬ q._array.length = 0) :
    q.poll = ⟨Except.error (PQError.user e),
      { q with _array := q._array.eraseIdx q.nextIndex, _cached := false }, []⟩ := by
  unfold poll
  rw [dif_neg hlen, hc, he]
  rfl

theorem poll_cached_ok {q : PromiseQueue β ε α}
    (hc : q._cached = true) (he : q._error = none) (hlen : ¬ q._array.length = 0) :
    q.poll = ⟨Except.ok q._result,
      { q with _array := q._array.eraseIdx q.nextIndex, _cached := false }, []⟩ := by
  unfold poll
  rw [dif_neg hlen, hc, he]
  rfl

theorem poll_fresh {q : PromiseQueue β ε α} {it : WorkItem β ε α}
    (hc : q._cached = false) (hget : q._array.get? q.nextIndex = some it) :
    q.poll = ⟨directOut it, { q with _array := q._array.eraseIdx q.nextIndex },
      [it.id]⟩ := by
  have hlen : ¬ q._array.length = 0 := length_ne_zero_of_get? hget
  unfold poll
  rw [dif_neg hlen, get_of_get? hget (nextIndex_lt hlen), hc]
  simp only [Bool.false_eq_true, if_false]
  unfold directOut
  cases hinv : invoke it <;> simp

theorem element_cases (q : PromiseQueue β ε α) :
    q.element = match (q.peek).out with
      | Except.ok none =>
        ⟨Except.error PQError.promiseQueueEmpty, (q.peek).st, (q.peek).trace⟩
      | Except.ok (some v) => ⟨Except.ok v, (q.peek).st, (q.peek).trace⟩
      | Except.error e => ⟨Except.error e, (q.peek).st, (q.peek).trace⟩ := rfl

theorem remove_cases (q : PromiseQueue β ε α) :
    q.remove = match (q.poll).out with
      | Except.ok none =>
        ⟨Except.error PQError.promiseQueueEmpty, (q.poll).st, (q.poll).trace⟩
      | Except.ok (some v) => ⟨Except.ok v, (q.poll).st, (q.poll).trace⟩
      | Except.error e => ⟨Except.error e, (q.poll).st, (q.poll).trace⟩ := rfl

theorem peek_cachedState (q : PromiseQueue β ε α) (it : WorkItem β ε α) :
    (cachedState q it).peek = ⟨directOut it, cachedState q it, []⟩ := by
  unfold cachedState directOut
  cases hinv : invoke it
  · exact peek_cached_err rfl rfl
  · exact peek_cached_ok rfl rfl

theorem element_fresh {q : PromiseQueue β ε α} {it : WorkItem β ε α}
    (hc : q._cached = false) (hget : q._array.get? q.nextIndex = some it) :
    q.element = ⟨elementOut it, cachedState q it, [it.id]⟩ := by
  unfold element
  rw [peek_fresh hc hget]
  unfold directOut elementOut
  cases hinv : invoke it <;> simp

theorem element_cachedState (q : PromiseQueue β ε α) (it : WorkItem β ε α) :
    (cachedState q it).element = ⟨elementOut it, cachedState q it, []⟩ := by
  unfold element
  rw [peek_cachedState]
  unfold directOut elementOut
  cases hinv : invoke it <;> simp

theorem runReads_cachedState (q : PromiseQueue β ε α) (it : WorkItem β ε α) :
    ∀ ops, runReads (cachedState q it) ops = (cachedState q it, []) := by
  intro ops
  induction ops with
  | nil => rfl
  | cons op ops ih =>
    unfold runReads readStep
    cases op
    · rw [peek_cachedState]
      simpa using ih
    · rw [element_cachedState]
      simpa using ih

theorem promiseAll_ok_length {ε α : Type} :
    ∀ (outs : List (Except ε α)) (vs : List α),
      promiseAll outs = Except.ok vs → vs.length = outs.length := by
  intro outs
  induction outs with
  | nil =>
    intro vs h
    cases h
    rfl
  | cons o rest ih =>
    intro vs h
    cases o with
    | error e => simp [promiseAll] at h
    | ok v =>
      simp only [promiseAll] at h
      cases hrest : promiseAll rest with
      | error e => rw [hrest] at h; simp [Except.map] at h
      | ok vs2 =>
        rw [hrest] at h
        simp only [Except.map] at h
        cases h
        simp [ih vs2 hrest]

theorem promiseAll_ok_forall2 {ε α γ : Type} (f : γ → Except ε α) :
    ∀ (sel : List γ) (vs : List α),
      promiseAll (sel.map f) = Except.ok vs →
      List.Forall₂ (fun it v => f it = Except.ok v) sel vs := by
  intro sel
  induction sel with
  | nil =>
    intro vs h
    cases h
    exact List.Forall₂.nil
  | cons it rest ih =>
    intro vs h
    rw [List.map_cons] at h
    cases hf : f it with
    | error e => rw [hf] at h; simp [promiseAll] at h
    | ok v =>
      rw [hf] at h
      simp only [promiseAll] at h
      cases hrest : promiseAll (rest.map f) with
      | error e => rw [hrest] at h; simp [Except.map] at h
      | ok vs2 =>
        rw [hrest] at h
        simp only [Except.map] at h
        cases h
        exact List.Forall₂.cons hf (ih vs2 hrest)

theorem mapError_eq_ok {ε ζ α : Type} {f : ε → ζ} {x : Except ε α} {v : α}
    (h : x.mapError f = Except.ok v) : x = Except.ok v := by
  cases x with
  | ok w => simpa [Except.mapError] using h
  | error e => simp [Except.mapError] at h

theorem batch_eq {q : PromiseQueue β ε α} {size : Int}
    (h : ¬ (q._array.length = 0 ∨ size < 1)) :
    q.batch size =
      ⟨(promiseAll (((q._array.drop (q.nextBatchIndex size)).take size.toNat).map
          invoke)).mapError PQError.user,
        { q with _array := q._array.take (q.nextBatchIndex size) ++
            q._array.drop (q.nextBatchIndex size + size.toNat) },
        ((q._array.drop (q.nextBatchIndex size)).take size.toNat).map
          (fun it => it.id)⟩ := by
  unfold batch
  rw [if_neg h]

theorem nextBatchIndex_eq {q : PromiseQueue β ε α} {size : Int} (h : 1 ≤ size) :
    q.nextBatchIndex size =
      if q._fifo then 0 else q._array.length - size.toNat := by
  unfold nextBatchIndex
  split
  · rfl
  · omega

theorem batch_fifo {q : PromiseQueue β ε α} {size : Int} (hf : q._fifo = true)
    (hne : ¬ q._array.length = 0) (hsz : 1 ≤ size) :
    q.batch size =
      ⟨(promiseAll ((q._array.take size.toNat).map invoke)).mapError PQError.user,
        { q with _array := q._array.drop size.toNat },
        (q._array.take size.toNat).map (fun it => it.id)⟩ := by
  have hguard : ¬ (q._array.length = 0 ∨ size < 1) := by
    push_neg
    exact ⟨hne, by omega⟩
  rw [batch_eq hguard, nextBatchIndex_eq hsz, hf]
  simp

theorem batch_filo {q : PromiseQueue β ε α} {size : Int} (hf : q._fifo = false)
    (hne : ¬ q._array.length = 0) (hsz : 1 ≤ size) :
    q.batch size =
      ⟨(promiseAll ((q._array.drop (q._array.length - size.toNat)).map
          invoke)).mapError PQError.user,
        { q with _array := q._array.take (q._array.length - size.toNat) },
        (q._array.drop (q._array.length - size.toNat)).map (fun it => it.id)⟩ := by
  have hguard : ¬ (q._array.length = 0 ∨ size < 1) := by
    push_neg
    exact ⟨hne, by omega⟩
  rw [batch_eq hguard, nextBatchIndex_eq hsz, hf]
  have htake : (q._array.drop (q._array.length - size.toNat)).take size.toNat =
      q._array.drop (q._array.length - size.toNat) := by
    apply List.take_of_length_le
    rw [List.length_drop]
    omega
  have hdrop : q._array.drop (q._array.length - size.toNat + size.toNat) = [] := by
    apply List.drop_eq_nil_of_le
    omega
  simp only [if_false, Bool.false_eq_true, htake, hdrop, List.append_nil]

theorem cachedState_array (q : PromiseQueue β ε α) (it : WorkItem β ε α) :
    (cachedState q it)._array = q._array := by
  unfold cachedState
  cases invoke it <;> rfl

theorem cachedState_cached (q : PromiseQueue β ε α) (it : WorkItem β ε α) :
    (cachedState q it)._cached = true := by
  unfold cachedState
  cases invoke it <;> rfl

theorem poll_cons_fresh (x : WorkItem β ε α) (xs : List (WorkItem β ε α)) :
    (PromiseQueue.mk (x :: xs) false none none true).poll =
      ⟨directOut x, PromiseQueue.mk xs false none none true, [x.id]⟩ := by
  have h := @poll_fresh β ε α (PromiseQueue.mk (x :: xs) false none none true) x rfl rfl
  simpa [List.eraseIdx] using h

theorem iterSteps_fifo {β ε α : Type} :
    ∀ (k : Nat) (l : List (WorkItem β ε α)), k ≤ l.length →
      iterSteps (PromiseQueue.mk l false none none true) k =
        (PromiseQueue.mk (l.drop k) false none none true,
          (l.take k).map (fun it => it.id)) := by
  intro k
  induction k with
  | zero =>
    intro l _
    simp [iterSteps]
  | succ k ih =>
    intro l h
    cases l with
    | nil => simp at h
    | cons x xs =>
      unfold iterSteps iterNext
      rw [poll_cons_fresh]
      have hrec := ih xs (by simpa using Nat.le_of_succ_le_succ h)
      simp [hrec]

theorem peekStart_fresh {q : PromiseQueue β ε α} {it : WorkItem β ε α}
    (hc : q._cached = false) (hget : q._array.get? q.nextIndex = some it) :
    peekStart q = (PeekPhase.started it.id (invoke it), [it.id]) := by
  have hlen : ¬ q._array.length = 0 := length_ne_zero_of_get? hget
  unfold peekStart
  rw [hc]
  simp only [Bool.false_eq_true, if_false]
  rw [dif_neg hlen, get_of_get? hget (nextIndex_lt hlen)]

theorem peekFinish_direct (q : PromiseQueue β ε α) (it : WorkItem β ε α) :
    peekFinish q (invoke it) = (directOut it, cachedState q it) := by
  unfold peekFinish directOut cachedState
  cases invoke it <;> rfl

theorem twoOverlappingPeeks_fresh {q : PromiseQueue β ε α} {it : WorkItem β ε α}
    (hc : q._cached = false) (hget : q._array.get? q.nextIndex = some it) :
    twoOverlappingPeeks q =
      (directOut it, directOut it, cachedState q it, [it.id, it.id]) := by
  unfold twoOverlappingPeeks
  rw [peekStart_fresh hc hget]
  unfold peekFinish directOut cachedState
  cases hinv : invoke it <;> simp

theorem cachedState_fifo (q : PromiseQueue β ε α) (it : WorkItem β ε α) :
    (cachedState q it)._fifo = q._fifo := by
  unfold cachedState
  cases invoke it <;> rfl

theorem cachedState_nextIndex (q : PromiseQueue β ε α) (it : WorkItem β ε α) :
    (cachedState q it).nextIndex = q.nextIndex := by
  unfold nextIndex
  rw [cachedState_array, cachedState_fifo]

theorem element_st (q : PromiseQueue β ε α) : (q.element).st = (q.peek).st := by
  rw [element_cases]
  cases h : (q.peek).out with
  | ok o => cases o <;> rfl
  | error e => rfl

theorem remove_st (q : PromiseQueue β ε α) : (q.remove).st = (q.poll).st := by
  rw [remove_cases]
  cases h : (q.poll).out with
  | ok o => cases o <;> rfl
  | error e => rfl

theorem get?_head_of_ne {q : PromiseQueue β ε α} (h : ¬ q._array.length = 0) :
    ∃ it, q._array.get? q.nextIndex = some it :=
  ⟨_, List.get?_eq_get (nextIndex_lt h)⟩

theorem peek_st_preserves (q : PromiseQueue β ε α) (hf : q._fifo = true)
    (hinv : headCacheInv q) :
    (q.peek).st._fifo = true ∧ headCacheInv (q.peek).st := by
  cases hc : q._cached
  · by_cases hl : q._array.length = 0
    · rw [peek_empty hc hl]
      exact ⟨hf, hinv⟩
    · obtain ⟨it, hget⟩ := get?_head_of_ne hl
      rw [peek_fresh hc hget]
      refine ⟨by rw [cachedState_fifo]; exact hf, fun _ => ⟨it, ?_, ?_⟩⟩
      · show (cachedState q it)._array.get? (cachedState q it).nextIndex = some it
        rw [cachedState_array, cachedState_nextIndex]
        exact hget
      · unfold cachedState
        cases hinv2 : invoke it with
        | error e => exact Or.inr ⟨rfl, e, rfl, rfl⟩
        | ok v => exact Or.inl ⟨v, rfl, rfl, rfl⟩
  · cases he : q._error with
    | none =>
      rw [peek_cached_ok hc he]
      exact ⟨hf, hinv⟩
    | some e =>
      rw [peek_cached_err hc he]
      exact ⟨hf, hinv⟩

theorem poll_st_preserves (q : PromiseQueue β ε α) (hf : q._fifo = true)
    (hinv : headCacheInv q) :
    (q.poll).st._fifo = true ∧ headCacheInv (q.poll).st := by
  by_cases hl : q._array.length = 0
  · rw [poll_empty hl]
    exact ⟨hf, hinv⟩
  · obtain ⟨it, hget⟩ := get?_head_of_ne hl
    cases hc : q._cached
    · rw [poll_fresh hc hget]
      refine ⟨hf, fun hcc => ?_⟩
      have hcc' : q._cached = true := hcc
      rw [hc] at hcc'
      exact Bool.noConfusion hcc'
    · cases he : q._error with
      | none =>
        rw [poll_cached_ok hc he hl]
        exact ⟨hf, fun hcc => Bool.noConfusion (show (false : Bool) = true from hcc)⟩
      | some e =>
        rw [poll_cached_err hc he hl]
        exact ⟨hf, fun hcc => Bool.noConfusion (show (false : Bool) = true from hcc)⟩

theorem inv_step (q : PromiseQueue β ε α) (op : POp β ε α)
    (hf : q._fifo = true) (hinv : headCacheInv q) (hop : FifoOnly op) :
    (applyPOp q op)._fifo = true ∧ headCacheInv (applyPOp q op) := by
  cases op with
  | addP id f as =>
    refine ⟨hf, ?_⟩
    intro hc
    have hc' : q._cached = true := hc
    obtain ⟨it, hget, hcorr⟩ := hinv hc'
    have h0 : q.nextIndex = 0 := by
      unfold nextIndex
      rw [hf]
      simp
    rw [h0] at hget
    have hlen : ¬ q._array.length = 0 := length_ne_zero_of_get? hget
    refine ⟨it, ?_, ?_⟩
    · have h0' : (q.add id f as).nextIndex = 0 := by
        unfold nextIndex
        have hfa : (q.add id f as)._fifo = true := hf
        rw [hfa]
        simp
      show (q.add id f as)._array.get? (q.add id f as).nextIndex = some it
      rw [h0']
      show (q._array ++ [WorkItem.mk id f as]).get? 0 = some it
      rw [List.get?_append (by omega)]
      exact hget
    · exact hcorr
  | peekP => exact peek_st_preserves q hf hinv
  | elementP =>
    show (q.element).st._fifo = true ∧ headCacheInv (q.element).st
    rw [element_st]
    exact peek_st_preserves q hf hinv
  | pollP => exact poll_st_preserves q hf hinv
  | removeP =>
    show (q.remove).st._fifo = true ∧ headCacheInv (q.remove).st
    rw [remove_st]
    exact poll_st_preserves q hf hinv
  | clearP =>
    exact ⟨hf, fun hc => Bool.noConfusion (show (false : Bool) = true from hc)⟩
  | batchP n => exact hop.elim
  | useFIFOP => exact hop.elim
  | useFILOP => exact hop.elim

theorem runPOps_fifo_inv :
    ∀ (ops : List (POp β ε α)) (q : PromiseQueue β ε α),
      q._fifo = true → headCacheInv q → (∀ op ∈ ops, FifoOnly op) →
      (runPOps q ops)._fifo = true ∧ headCacheInv (runPOps q ops) := by
  intro ops
  induction ops with
  | nil =>
    intro q hf hinv _
    exact ⟨hf, hinv⟩
  | cons op ops ih =>
    intro q hf hinv hops
    have hstep := inv_step q op hf hinv (hops op (by simp))
    exact ih (applyPOp q op) hstep.1 hstep.2 (fun o ho => hops o (by simp [ho]))

theorem remove_empty {q : PromiseQueue β ε α} (h : q._array.length = 0) :
    q.remove = ⟨Except.error PQError.promiseQueueEmpty, q, []⟩ := by
  unfold remove
  rw [poll_empty h]

theorem element_empty {q : PromiseQueue β ε α}
    (hc : q._cached = false) (h : q._array.length = 0) :
    q.element = ⟨Except.error PQError.promiseQueueEmpty, q, []⟩ := by
  unfold element
  rw [peek_empty hc h]

theorem element_nonempty_not_empty {q : PromiseQueue β ε α}
    (hwf : wf q) (h : ¬ q._array.length = 0) :
    ¬ (q.element).out = Except.error PQError.promiseQueueEmpty := by
  obtain ⟨it, hget⟩ := get?_head_of_ne h
  cases hc : q._cached
  · rw [element_fresh hc hget]
    unfold elementOut
    cases invoke it <;> simp
  · rcases hwf hc with ⟨v, hr, he⟩ | ⟨hr, e, he⟩
    · unfold element
      rw [peek_cached_ok hc he, hr]
      simp
    · unfold element
      rw [peek_cached_err hc he]
      simp

theorem remove_nonempty_not_empty {q : PromiseQueue β ε α}
    (hwf : wf q) (h : ¬ q._array.length = 0) :
    ¬ (q.remove).out = Except.error PQError.promiseQueueEmpty := by
  obtain ⟨it, hget⟩ := get?_head_of_ne h
  cases hc : q._cached
  · unfold remove
    rw [poll_fresh hc hget]
    unfold directOut
    cases invoke it <;> simp
  · rcases hwf hc with ⟨v, hr, he⟩ | ⟨hr, e, he⟩
    · unfold remove
      rw [poll_cached_ok hc he h, hr]
      simp
    · unfold remove
      rw [poll_cached_err hc he h]
      simp

end PromiseQueue

namespace Queue

variable {T : Type}

theorem eraseIdx_concat (l : List T) (a : T) :
    (l ++ [a]).eraseIdx l.length = l := by
  induction l with
  | nil => rfl
  | cons x xs ih => simpa [List.eraseIdx] using ih

theorem poll_cons_fifo (x : T) (xs : List T) :
    (Queue.mk (x :: xs) true).poll = (some x, Queue.mk xs true) := by
  simp [poll, nextIndex, List.eraseIdx]

theorem poll_eq_get? (q : Queue T) (h : ¬ q._array.length = 0) :
    q.poll = (q._array.get? q.nextIndex,
      { q with _array := q._array.eraseIdx q.nextIndex }) := by
  unfold poll
  rw [dif_neg h, List.get?_eq_get (nextIndex_lt_sync h)]

theorem poll_concat_filo (l : List T) (a : T) :
    (Queue.mk (l ++ [a]) false).poll = (some a, Queue.mk l false) := by
  have hlen : ¬ (l ++ [a]).length = 0 := by simp
  have hidx : (Queue.mk (l ++ [a]) false).nextIndex = l.length := by
    simp [nextIndex]
  rw [poll_eq_get? _ hlen, hidx, List.get?_concat_length, eraseIdx_concat]

theorem drain_fifo (l : List T) : Queue.drain (Queue.mk l true) = l := by
  induction l with
  | nil => rfl
  | cons x xs ih =>
    show drainAux (x :: xs).length (Queue.mk (x :: xs) true) = x :: xs
    rw [List.length_cons]
    unfold drainAux
    rw [poll_cons_fifo]
    exact congrArg (x :: ·) ih

theorem element_empty_iff (q : Queue T) :
    q.element = Except.error SyncError.queueEmpty ↔ q._array.length = 0 := by
  unfold element
  split <;> simp [*]

theorem remove_error_iff (q : Queue T) :
    q.remove = Except.error SyncError.queueEmpty ↔ q._array.length = 0 := by
  unfold remove
  split <;> simp [*]

theorem peek_empty_eq (q : Queue T) (h : q._array.length = 0) : q.peek = none := by
  unfold peek
  rw [dif_pos h]

theorem poll_empty_eq (q : Queue T) (h : q._array.length = 0) : q.poll = (none, q) := by
  unfold poll
  rw [dif_pos h]

theorem drain_filo (l : List T) : Queue.drain (Queue.mk l false) = l.reverse := by
  induction l using List.reverseRecOn with
  | nil => rfl
  | append_singleton l a ih =>
    show drainAux (l ++ [a]).length (Queue.mk (l ++ [a]) false) = (l ++ [a]).reverse
    rw [List.length_append, List.length_cons, List.length_nil]
    unfold drainAux
    rw [poll_concat_filo]
    simpa using congrArg (a :: ·) ih

end Queue

end TsQueue

open TsQueue

/-- C8: for the synchronous Queue, repeated `poll()` under FIFO returns the
stored items in insertion (backing) order and under FILO in reverse
insertion order, and `useFIFO`/`useFILO` change only the mode flag — they
never reorder the stored items, so only subsequent reads are affected. -/
theorem claim8_sync_poll_order {T : Type} (q : Queue T) :
    Queue.drain q = (if q._fifo then q._array else q._array.reverse) ∧
    (q.useFIFO)._array = q._array ∧
    (q.useFILO)._array = q._array ∧
    (q.useFIFO)._fifo = true ∧
    (q.useFILO)._fifo = false ∧
    Queue.drain (q.useFIFO) = q._array ∧
    Queue.drain (q.useFILO) = q._array.reverse := by
  obtain ⟨l, fifo⟩ := q
  refine ⟨?_, rfl, rfl, rfl, rfl, ?_, ?_⟩
  · cases fifo
    · simpa using Queue.drain_filo l
    · simpa using Queue.drain_fifo l
  · exact Queue.drain_fifo l
  · exact Queue.drain_filo l

theorem jsval_list_ne_singleton_arr (xs : List JSVal) : xs ≠ [JSVal.arr xs] := by
  intro h
  have hs := congrArg sizeOf h
  simp at hs
  omega

/-- C10: `Queue.add` always flattens array arguments — `add(xs)` appends the
elements of `xs` one by one in order (growing the size by `xs.length`, by 0
for `[]`), non-array values are appended as single items, and an array value
is never enqueued as one item. -/
theorem claim10_add_flattens_arrays :
    (∀ (a xs : List JSVal),
      Queue.addValue a (JSVal.arr xs) = a ++ xs ∧
      (Queue.addValue a (JSVal.arr xs)).length = a.length + xs.length) ∧
    (∀ (a : List JSVal) (n : Int),
      Queue.addValue a (JSVal.num n) = a ++ [JSVal.num n]) ∧
    (∀ (a : List JSVal) (s : String),
      Queue.addValue a (JSVal.str s) = a ++ [JSVal.str s]) ∧
    (∀ (a xs : List JSVal),
      Queue.addValue a (JSVal.arr xs) ≠ a ++ [JSVal.arr xs]) := by
  refine ⟨fun a xs => ⟨rfl, by simp [Queue.addValue]⟩, fun a n => rfl, fun a s => rfl,
    fun a xs h => ?_⟩
  rw [show Queue.addValue a (JSVal.arr xs) = a ++ xs from rfl] at h
  exact jsval_list_ne_singleton_arr xs (List.append_cancel_left h)

/-- C2 (amended): starting from any queue whose cache slot is absent and
whose head entry `it` is therefore not yet evaluated, the first
`peek`/`element` call invokes the head callable exactly once (trace
`[it.id]`) and stores the outcome; every further consecutive
`peek`/`element` call (any number, in any mix, with no intervening
`poll`/`remove`/`clear`) returns the identical cached outcome — the same
success value or the rethrown identical failure — with no further
invocation and no state change.  The cache-absent qualifier is forced: on
the reachable non-empty stale-cache state of the counterexample,
consecutive reads invoke the head's callable zero times (not once) and
return the stale outcome of a removed entry. -/
theorem claim2_reads_evaluate_head_once {β ε α : Type}
    (q : TsQueue.PromiseQueue β ε α) (it : TsQueue.WorkItem β ε α)
    (hc : q._cached = false)
    (hget : q._array.get? q.nextIndex = some it) :
    q.peek = ⟨TsQueue.PromiseQueue.directOut it,
      TsQueue.PromiseQueue.cachedState q it, [it.id]⟩ ∧
    q.element = ⟨TsQueue.PromiseQueue.elementOut it,
      TsQueue.PromiseQueue.cachedState q it, [it.id]⟩ ∧
    (TsQueue.PromiseQueue.cachedState q it).peek =
      ⟨TsQueue.PromiseQueue.directOut it,
        TsQueue.PromiseQueue.cachedState q it, []⟩ ∧
    (TsQueue.PromiseQueue.cachedState q it).element =
      ⟨TsQueue.PromiseQueue.elementOut it,
        TsQueue.PromiseQueue.cachedState q it, []⟩ ∧
    (∀ ops, TsQueue.PromiseQueue.runReads
      (TsQueue.PromiseQueue.cachedState q it) ops =
      (TsQueue.PromiseQueue.cachedState q it, [])) ∧
    (∀ op ops, TsQueue.PromiseQueue.runReads q (op :: ops) =
      (TsQueue.PromiseQueue.cachedState q it, [it.id])) := by
  refine ⟨TsQueue.PromiseQueue.peek_fresh hc hget,
    TsQueue.PromiseQueue.element_fresh hc hget,
    TsQueue.PromiseQueue.peek_cachedState q it,
    TsQueue.PromiseQueue.element_cachedState q it,
    TsQueue.PromiseQueue.runReads_cachedState q it, ?_⟩
  intro op ops
  unfold TsQueue.PromiseQueue.runReads TsQueue.PromiseQueue.readStep
  cases op
  · rw [TsQueue.PromiseQueue.peek_fresh hc hget]
    simp [TsQueue.PromiseQueue.runReads_cachedState q it ops]
  · rw [TsQueue.PromiseQueue.element_fresh hc hget]
    simp [TsQueue.PromiseQueue.runReads_cachedState q it ops]

def c2item : TsQueue.WorkItem Nat Nat Nat :=
  ⟨0, fun a => Except.ok (a.foldl (fun x y => x + y) 0), [2, 3]⟩

def c2queue : TsQueue.PromiseQueue Nat Nat Nat :=
  { _array := [c2item], _cached := false, _result := none, _error := none,
    _fifo := true }

/-- Witness for C2 at a concrete one-entry queue. -/
theorem claim2_witness :
    (c2queue._cached = false ∧
      c2queue._array.get? c2queue.nextIndex = some c2item) ∧
    c2queue.peek = ⟨TsQueue.PromiseQueue.directOut c2item,
      TsQueue.PromiseQueue.cachedState c2queue c2item, [c2item.id]⟩ :=
  ⟨⟨rfl, rfl⟩, (claim2_reads_evaluate_head_once c2queue c2item rfl rfl).1⟩

/-- C3: on any queue with a head entry, `poll` removes the head work item.
With a cached success it returns the cached value with no invocation and
clears the cache flag; with a cached failure it throws the cached error with
no invocation and clears the cache flag; with no cache it invokes the
removed entry's callable exactly once, returns/throws the outcome directly,
and the cache stays absent. -/
theorem claim3_poll_consumes_head {β ε α : Type}
    (q : TsQueue.PromiseQueue β ε α) (it : TsQueue.WorkItem β ε α)
    (hget : q._array.get? q.nextIndex = some it) :
    (∀ v, q._cached = true → q._result = some v → q._error = none →
      q.poll = ⟨Except.ok (some v),
        { q with _array := q._array.eraseIdx q.nextIndex, _cached := false },
        []⟩) ∧
    (∀ e, q._cached = true → q._error = some e →
      q.poll = ⟨Except.error (TsQueue.PQError.user e),
        { q with _array := q._array.eraseIdx q.nextIndex, _cached := false },
        []⟩) ∧
    (q._cached = false →
      q.poll = ⟨TsQueue.PromiseQueue.directOut it,
        { q with _array := q._array.eraseIdx q.nextIndex }, [it.id]⟩) := by
  have hlen := TsQueue.PromiseQueue.length_ne_zero_of_get? hget
  refine ⟨fun v hc hr he => ?_, fun e hc he => ?_, fun hc => ?_⟩
  · rw [TsQueue.PromiseQueue.poll_cached_ok hc he hlen, hr]
  · exact TsQueue.PromiseQueue.poll_cached_err hc he hlen
  · exact TsQueue.PromiseQueue.poll_fresh hc hget

/-- Witness for C3: a cached success is consumed without re-invocation. -/
theorem claim3_witness :
    ((TsQueue.PromiseQueue.cachedState c2queue c2item)._array.get?
        (TsQueue.PromiseQueue.cachedState c2queue c2item).nextIndex =
        some c2item ∧
      (TsQueue.PromiseQueue.cachedState c2queue c2item)._cached = true ∧
      (TsQueue.PromiseQueue.cachedState c2queue c2item)._result = some 5 ∧
      (TsQueue.PromiseQueue.cachedState c2queue c2item)._error = none) ∧
    (TsQueue.PromiseQueue.cachedState c2queue c2item).poll =
      ⟨Except.ok (some 5),
        { TsQueue.PromiseQueue.cachedState c2queue c2item with
            _array := [], _cached := false }, []⟩ :=
  ⟨⟨rfl, rfl, rfl, rfl⟩,
    (claim3_poll_consumes_head
      (TsQueue.PromiseQueue.cachedState c2queue c2item) c2item rfl).1 5 rfl rfl rfl⟩

/-- C4 (amended): on an empty entry list with an absent cache, `peek`
returns the empty marker and changes nothing; but when a (stale) cache is
present — reachable because `batch` removes entries without invalidating
the cache — `peek` consults the cache before the emptiness test and returns
the previously cached outcome even though the queue is empty. -/
theorem claim4_amended_peek_on_empty {β ε α : Type}
    (q : TsQueue.PromiseQueue β ε α) :
    (q._array.length = 0 → q._cached = false →
      q.peek = ⟨Except.ok none, q, []⟩) ∧
    (∀ v, q._cached = true → q._result = some v → q._error = none →
      q.peek = ⟨Except.ok (some v), q, []⟩) ∧
    (∀ e, q._cached = true → q._error = some e →
      q.peek = ⟨Except.error (TsQueue.PQError.user e), q, []⟩) := by
  refine ⟨fun h hc => TsQueue.PromiseQueue.peek_empty hc h,
    fun v hc hr he => ?_, fun e hc he => TsQueue.PromiseQueue.peek_cached_err hc he⟩
  rw [TsQueue.PromiseQueue.peek_cached_ok hc he, hr]

/-- Witness for C4 (amended) on the empty fresh queue. -/
theorem claim4_witness :
    ((TsQueue.PromiseQueue.new : TsQueue.PromiseQueue Nat Nat Nat)._array.length = 0 ∧
      (TsQueue.PromiseQueue.new : TsQueue.PromiseQueue Nat Nat Nat)._cached = false) ∧
    (TsQueue.PromiseQueue.new : TsQueue.PromiseQueue Nat Nat Nat).peek =
      ⟨Except.ok none, TsQueue.PromiseQueue.new, []⟩ :=
  ⟨⟨rfl, rfl⟩, (claim4_amended_peek_on_empty TsQueue.PromiseQueue.new).1 rfl rfl⟩

/-- The run `new PromiseQueue(); add(f); await peek(); await batch(1)`:
`peek` caches the head outcome `7`, `batch(1)` then removes the only entry
without invalidating the cache, leaving an empty queue with a stale cache. -/
def staleCacheRun : TsQueue.PromiseQueue Nat Nat Nat :=
  ((((TsQueue.PromiseQueue.new).add 0 (fun _ => Except.ok 7) []).peek).st.batch 1).st

/-- Counterexample to C4 as stated: `staleCacheRun` is reachable by public
operations, its entry list is empty, yet `peek` returns the previously
cached outcome `7` instead of the empty marker. -/
theorem claim4_counterexample :
    staleCacheRun._array = [] ∧
    staleCacheRun._cached = true ∧
    (staleCacheRun.peek).out = Except.ok (some 7) ∧
    (staleCacheRun.peek).st = staleCacheRun ∧
    ¬ (staleCacheRun.peek).out = Except.ok none := by
  refine ⟨rfl, rfl, rfl, rfl, fun h => ?_⟩
  exact Option.noConfusion (Except.ok.inj
    ((rfl : (staleCacheRun.peek).out = Except.ok (some 7)).symm.trans h))

/-- C7 (amended): for the synchronous Queue, `element`/`remove` throw the
Empty error exactly when the size is zero while `peek`/`poll` return the
empty marker.  For the PromiseQueue (under the cache well-formedness that
every operation preserves), `remove` throws its Empty error exactly when
the size is zero and `element` never throws it on a non-empty queue; but
`element` throws it on size zero only when the cache is absent — with a
stale cache (reachable only via `batch`) `element` succeeds on an empty
queue. -/
theorem claim7_amended_empty_error_discipline :
    (∀ (T : Type) (q : TsQueue.Queue T),
      (q.element = Except.error TsQueue.SyncError.queueEmpty ↔
        q._array.length = 0) ∧
      (q.remove = Except.error TsQueue.SyncError.queueEmpty ↔
        q._array.length = 0) ∧
      (q._array.length = 0 → q.peek = none ∧ q.poll = (none, q))) ∧
    (∀ (β ε α : Type) (q : TsQueue.PromiseQueue β ε α),
      TsQueue.PromiseQueue.wf q →
      (((q.remove).out = Except.error TsQueue.PQError.promiseQueueEmpty) ↔
        q._array.length = 0) ∧
      (¬ q._array.length = 0 →
        ¬ (q.element).out = Except.error TsQueue.PQError.promiseQueueEmpty) ∧
      (q._cached = false →
        (((q.element).out = Except.error TsQueue.PQError.promiseQueueEmpty) ↔
          q._array.length = 0)) ∧
      (q._array.length = 0 → (q.poll).out = Except.ok none) ∧
      (q._array.length = 0 → q._cached = false →
        (q.peek).out = Except.ok none)) := by
  constructor
  · intro T q
    exact ⟨TsQueue.Queue.element_empty_iff q, TsQueue.Queue.remove_error_iff q,
      fun h => ⟨TsQueue.Queue.peek_empty_eq q h, TsQueue.Queue.poll_empty_eq q h⟩⟩
  · intro β ε α q hwf
    refine ⟨⟨fun ho => ?_, fun h => by rw [TsQueue.PromiseQueue.remove_empty h]⟩,
      fun h => TsQueue.PromiseQueue.element_nonempty_not_empty hwf h,
      fun hc => ⟨fun ho => ?_, fun h => by rw [TsQueue.PromiseQueue.element_empty hc h]⟩,
      fun h => by rw [TsQueue.PromiseQueue.poll_empty h],
      fun h hc => by rw [TsQueue.PromiseQueue.peek_empty hc h]⟩
    · by_contra h
      exact TsQueue.PromiseQueue.remove_nonempty_not_empty hwf h ho
    · by_contra h
      exact TsQueue.PromiseQueue.element_nonempty_not_empty hwf h ho

/-- Witness for C7 (amended) at the empty fresh PromiseQueue. -/
theorem claim7_witness :
    TsQueue.PromiseQueue.wf
      (TsQueue.PromiseQueue.new : TsQueue.PromiseQueue Nat Nat Nat) ∧
    ((((TsQueue.PromiseQueue.new : TsQueue.PromiseQueue Nat Nat Nat).remove).out =
        Except.error TsQueue.PQError.promiseQueueEmpty) ↔
      (TsQueue.PromiseQueue.new : TsQueue.PromiseQueue Nat Nat Nat)._array.length = 0) :=
  by
  have hwf : TsQueue.PromiseQueue.wf
      (TsQueue.PromiseQueue.new : TsQueue.PromiseQueue Nat Nat Nat) := by
    intro h
    exact absurd h (by decide)
  exact ⟨hwf, ((claim7_amended_empty_error_discipline).2 Nat Nat Nat
    TsQueue.PromiseQueue.new hwf).1⟩

/-- Counterexample to C7 as stated: on the reachable stale-cache state
`staleCacheRun` the size is zero, yet `element` returns the cached value
`7` and does not raise the Empty error — "raises iff size() == 0" fails
for the PromiseQueue. -/
theorem claim7_counterexample :
    staleCacheRun.size = 0 ∧
    (staleCacheRun.element).out = Except.ok 7 ∧
    ¬ (staleCacheRun.element).out =
      Except.error TsQueue.PQError.promiseQueueEmpty := by
  refine ⟨rfl, rfl, fun h => ?_⟩
  exact Except.noConfusion
    ((rfl : (staleCacheRun.element).out = Except.ok 7).symm.trans h)

/-- C5: `batch(n)` on an empty queue or with `n < 1` returns an empty
sequence and changes nothing.  Otherwise it removes exactly the accessible
`min n s` entries — the first `n` from the front under FIFO, the last `n`
from the back under FILO, preserving their original relative order — leaves
every other component of the state (including the cache slot) untouched,
invokes exactly the removed entries' callables, and, whenever all removed
entries succeed, returns their results in the same order as removed (hence
exactly `s` outcomes and an emptied entry list when `s < n`). -/
theorem claim5_batch_semantics {β ε α : Type} (q : TsQueue.PromiseQueue β ε α)
    (size : Int) :
    ((q._array.length = 0 ∨ size < 1) → q.batch size = ⟨Except.ok [], q, []⟩) ∧
    (¬ q._array.length = 0 → 1 ≤ size →
      (q.batch size).st._fifo = q._fifo ∧
      (q.batch size).st._cached = q._cached ∧
      (q.batch size).st._result = q._result ∧
      (q.batch size).st._error = q._error ∧
      (q._fifo = true →
        (q.batch size).st._array = q._array.drop size.toNat ∧
        (q.batch size).trace =
          (q._array.take size.toNat).map (fun it => it.id) ∧
        (q.batch size).out =
          (TsQueue.PromiseQueue.promiseAll
            ((q._array.take size.toNat).map TsQueue.invoke)).mapError
            TsQueue.PQError.user) ∧
      (q._fifo = false →
        (q.batch size).st._array =
          q._array.take (q._array.length - size.toNat) ∧
        (q.batch size).trace =
          (q._array.drop (q._array.length - size.toNat)).map (fun it => it.id) ∧
        (q.batch size).out =
          (TsQueue.PromiseQueue.promiseAll
            ((q._array.drop (q._array.length - size.toNat)).map
              TsQueue.invoke)).mapError TsQueue.PQError.user) ∧
      ((q._array.length : Int) < size → (q.batch size).st._array = []) ∧
      (∀ vs, (q.batch size).out = Except.ok vs →
        vs.length = min size.toNat q._array.length ∧
        (q._fifo = true →
          List.Forall₂ (fun it v => TsQueue.invoke it = Except.ok v)
            (q._array.take size.toNat) vs) ∧
        (q._fifo = false →
          List.Forall₂ (fun it v => TsQueue.invoke it = Except.ok v)
            (q._array.drop (q._array.length - size.toNat)) vs))) := by
  constructor
  · intro h
    unfold TsQueue.PromiseQueue.batch
    rw [if_pos h]
  · intro hne hsz
    cases hf : q._fifo
    · rw [TsQueue.PromiseQueue.batch_filo hf hne hsz]
      refine ⟨hf, rfl, rfl, rfl, ?_, ?_, ?_, ?_⟩
      · intro hff
        exact absurd hff (by simp)
      · intro _
        exact ⟨rfl, rfl, rfl⟩
      · intro hlt
        have h0 : q._array.length - size.toNat = 0 := by omega
        show q._array.take (q._array.length - size.toNat) = []
        rw [h0, List.take_zero]
      · intro vs ho
        have hok := TsQueue.PromiseQueue.mapError_eq_ok ho
        have hlen := TsQueue.PromiseQueue.promiseAll_ok_length _ vs hok
        have hf2 := TsQueue.PromiseQueue.promiseAll_ok_forall2 TsQueue.invoke _ vs hok
        refine ⟨?_, fun hff => absurd hff (by simp), fun _ => hf2⟩
        rw [hlen, List.length_map, List.length_drop]
        omega
    · rw [TsQueue.PromiseQueue.batch_fifo hf hne hsz]
      refine ⟨hf, rfl, rfl, rfl, ?_, ?_, ?_, ?_⟩
      · intro _
        exact ⟨rfl, rfl, rfl⟩
      · intro hff
        exact absurd hff (by simp)
      · intro hlt
        show q._array.drop size.toNat = []
        apply List.drop_eq_nil_of_le
        omega
      · intro vs ho
        have hok := TsQueue.PromiseQueue.mapError_eq_ok ho
        have hlen := TsQueue.PromiseQueue.promiseAll_ok_length _ vs hok
        have hf2 := TsQueue.PromiseQueue.promiseAll_ok_forall2 TsQueue.invoke _ vs hok
        refine ⟨?_, fun _ => hf2, fun hff => absurd hff (by simp)⟩
        rw [hlen, List.length_map, List.length_take]

def c5queue : TsQueue.PromiseQueue Nat Nat Nat :=
  { _array := [⟨0, fun _ => Except.ok 7, []⟩, ⟨1, fun _ => Except.ok 8, []⟩],
    _cached := false, _result := none, _error := none, _fifo := true }

/-- Witness for C5: `batch(3)` on a FIFO queue of size 2 empties the queue
and yields both outcomes in order. -/
theorem claim5_witness :
    (¬ c5queue._array.length = 0 ∧ 1 ≤ (3 : Int)) ∧
    (c5queue.batch 3).st._array = [] ∧
    (c5queue.batch 3).out = Except.ok [7, 8] := by
  refine ⟨⟨by decide, by decide⟩, ?_, rfl⟩
  have h := (claim5_batch_semantics c5queue 3).2 (by decide) (by decide)
  exact h.2.2.2.2.2.2.1 (by decide)

/-- C6 (amended): iterating a FIFO work queue holding entries `l` and then
terminating early after `k` yielded values removes exactly the first `k`
entries, invoking exactly their callables, and leaves the remaining
`l.drop k` entries queued; however the iterator's `return()` handler runs a
`peek()`, which additionally invokes the callable of the first remaining
entry and caches its outcome (entries after it stay un-evaluated).  A
failure of the entry reached mid-iteration propagates out of the
corresponding `next()` step and leaves all not-yet-processed entries
queued. -/
theorem claim6_amended_early_termination {β ε α : Type}
    (l : List (TsQueue.WorkItem β ε α)) (k : Nat) (hk : k < l.length) :
    (TsQueue.PromiseQueue.iterSteps
        (TsQueue.PromiseQueue.mk l false none none true) k).1 =
      TsQueue.PromiseQueue.mk (l.drop k) false none none true ∧
    (TsQueue.PromiseQueue.iterSteps
        (TsQueue.PromiseQueue.mk l false none none true) k).2 =
      (l.take k).map (fun it => it.id) ∧
    (∀ it, l.get? k = some it →
      (TsQueue.PromiseQueue.earlyTermination
          (TsQueue.PromiseQueue.mk l false none none true) k).1._array =
        l.drop k ∧
      (TsQueue.PromiseQueue.earlyTermination
          (TsQueue.PromiseQueue.mk l false none none true) k).1._cached = true ∧
      (TsQueue.PromiseQueue.earlyTermination
          (TsQueue.PromiseQueue.mk l false none none true) k).2 =
        (l.take k).map (fun it => it.id) ++ [it.id]) ∧
    (∀ it e, l.get? k = some it → TsQueue.invoke it = Except.error e →
      (TsQueue.PromiseQueue.iterNext
          (TsQueue.PromiseQueue.iterSteps
            (TsQueue.PromiseQueue.mk l false none none true) k).1).out.2 =
        Except.error (TsQueue.PQError.user e) ∧
      (TsQueue.PromiseQueue.iterNext
          (TsQueue.PromiseQueue.iterSteps
            (TsQueue.PromiseQueue.mk l false none none true) k).1).st._array =
        l.drop (k + 1)) := by
  have hsteps := TsQueue.PromiseQueue.iterSteps_fifo k l (Nat.le_of_lt hk)
  have hget0 : ∀ it, l.get? k = some it →
      (TsQueue.PromiseQueue.mk (l.drop k) false none none
        true)._array.get? (TsQueue.PromiseQueue.mk (l.drop k) false none none
        true).nextIndex = some it := by
    intro it hit
    show (l.drop k).get? _ = some it
    have : (TsQueue.PromiseQueue.mk (l.drop k) false none none
        true).nextIndex = 0 := rfl
    rw [this, List.get?_drop, Nat.add_zero, hit]
  refine ⟨by rw [hsteps], by rw [hsteps], fun it hit => ?_, fun it e hit hinv => ?_⟩
  · unfold TsQueue.PromiseQueue.earlyTermination TsQueue.PromiseQueue.iterReturn
    simp only [hsteps, TsQueue.PromiseQueue.peek_fresh rfl (hget0 it hit)]
    exact ⟨TsQueue.PromiseQueue.cachedState_array _ it,
      TsQueue.PromiseQueue.cachedState_cached _ it, trivial⟩
  · have hdrop : l.drop k = it :: l.drop (k + 1) := by
      have hlt : k < l.length := hk
      rw [List.drop_eq_get_cons hlt]
      have hg : l.get ⟨k, hlt⟩ = it := by
        have h2 := List.get?_eq_get hlt
        exact (Option.some.inj (hit.symm.trans h2)).symm
      rw [hg]
    simp only [hsteps, TsQueue.PromiseQueue.iterNext, hdrop,
      TsQueue.PromiseQueue.poll_cons_fresh, TsQueue.PromiseQueue.directOut, hinv]
    exact ⟨trivial, trivial⟩

def c6item0 : TsQueue.WorkItem Nat Nat Nat := ⟨0, fun _ => Except.ok 1, []⟩

def c6item1 : TsQueue.WorkItem Nat Nat Nat := ⟨1, fun _ => Except.ok 2, []⟩

def c6queue : TsQueue.PromiseQueue Nat Nat Nat :=
  TsQueue.PromiseQueue.mk [c6item0, c6item1] false none none true

/-- Counterexample to C6 as stated: breaking after 1 of 2 yielded values
leaves entry id 1 still queued, yet the termination sequence's invocation
trace is `[0, 1]` — the remaining entry's callable was invoked (by the
`return()` handler's `peek`, which also populates the cache). -/
theorem claim6_counterexample :
    (TsQueue.PromiseQueue.earlyTermination c6queue 1).1._array = [c6item1] ∧
    (TsQueue.PromiseQueue.earlyTermination c6queue 1).1._cached = true ∧
    (TsQueue.PromiseQueue.earlyTermination c6queue 1).2 = [0, 1] :=
  ⟨rfl, rfl, rfl⟩

/-- Witness for C6 (amended) on the two-entry queue. -/
theorem claim6_witness :
    (1 < ([c6item0, c6item1] : List (TsQueue.WorkItem Nat Nat Nat)).length ∧
      ([c6item0, c6item1] : List (TsQueue.WorkItem Nat Nat Nat)).get? 1 =
        some c6item1) ∧
    (TsQueue.PromiseQueue.earlyTermination
        (TsQueue.PromiseQueue.mk [c6item0, c6item1] false none none true)
        1).2 = ([c6item0, c6item1].take 1).map (fun it => it.id) ++ [c6item1.id] := by
  refine ⟨⟨by decide, rfl⟩, ?_⟩
  exact ((claim6_amended_early_termination [c6item0, c6item1] 1
    (by decide)).2.2.1 c6item1 rfl).2.2

/-- C9 (amended): the implementation has no pending-operation marker, so
two `peek` calls that overlap — the second starting before the first's
awaited evaluation settles — EACH invoke the head callable: the synchronous
prefix of the second call still sees `_cached == false` and re-invokes, so
the combined invocation trace is `[it.id, it.id]` (duplicate evaluation).
At-most-once evaluation holds only for non-overlapping calls: a `peek` that
runs start-to-finish without interleaving performs exactly one invocation
and caches the outcome (as in C2). -/
theorem claim9_amended_no_serialization {β ε α : Type}
    (q : TsQueue.PromiseQueue β ε α) (it : TsQueue.WorkItem β ε α)
    (hc : q._cached = false)
    (hget : q._array.get? q.nextIndex = some it) :
    TsQueue.PromiseQueue.peekStart q =
      (TsQueue.PromiseQueue.PeekPhase.started it.id (TsQueue.invoke it),
        [it.id]) ∧
    TsQueue.PromiseQueue.twoOverlappingPeeks q =
      (TsQueue.PromiseQueue.directOut it, TsQueue.PromiseQueue.directOut it,
        TsQueue.PromiseQueue.cachedState q it, [it.id, it.id]) ∧
    q.peek = ⟨(TsQueue.PromiseQueue.peekFinish q (TsQueue.invoke it)).1,
      (TsQueue.PromiseQueue.peekFinish q (TsQueue.invoke it)).2, [it.id]⟩ := by
  refine ⟨TsQueue.PromiseQueue.peekStart_fresh hc hget,
    TsQueue.PromiseQueue.twoOverlappingPeeks_fresh hc hget, ?_⟩
  rw [TsQueue.PromiseQueue.peekFinish_direct q it]
  exact TsQueue.PromiseQueue.peek_fresh hc hget

def c9item : TsQueue.WorkItem Nat Nat Nat := ⟨0, fun _ => Except.ok 3, []⟩

def c9queue : TsQueue.PromiseQueue Nat Nat Nat :=
  TsQueue.PromiseQueue.mk [c9item] false none none true

/-- Counterexample to C9 as stated: on a one-entry queue, two overlapping
`peek` calls produce the invocation trace `[0, 0]` — the head entry's
callable runs twice, so evaluation is not at-most-once per head entry and
the second caller is not serialized onto the first's pending evaluation. -/
theorem claim9_counterexample :
    (TsQueue.PromiseQueue.twoOverlappingPeeks c9queue).2.2.2 = [0, 0] ∧
    ¬ (TsQueue.PromiseQueue.twoOverlappingPeeks c9queue).2.2.2 = [0] :=
  ⟨rfl, by decide⟩

/-- Witness for C9 (amended) on the one-entry queue. -/
theorem claim9_witness :
    (c9queue._cached = false ∧
      c9queue._array.get? c9queue.nextIndex = some c9item) ∧
    TsQueue.PromiseQueue.twoOverlappingPeeks c9queue =
      (TsQueue.PromiseQueue.directOut c9item,
        TsQueue.PromiseQueue.directOut c9item,
        TsQueue.PromiseQueue.cachedState c9queue c9item,
        [0, 0]) :=
  ⟨⟨rfl, rfl⟩,
    (claim9_amended_no_serialization c9queue c9item rfl rfl).2.1⟩

/-- C1 (amended): starting from a fresh queue, the head-cache invariant —
whenever the cache slot is present it corresponds to the entry at the
current head position — is preserved by every sequence of `add`, `peek`,
`element`, `poll`, `remove` and `clear` (all of which also keep the queue
in its initial FIFO mode).  It does NOT hold for the full public operation
set: `batch` removes head entries without invalidating the cache, and
`useFILO`/`useFIFO` (or an `add` performed in FILO mode) move the head
while the cache still refers to the old head (see the counterexample). -/
theorem claim1_amended_head_cache_invariant {β ε α : Type}
    (ops : List (TsQueue.PromiseQueue.POp β ε α))
    (hops : ∀ op ∈ ops, TsQueue.PromiseQueue.FifoOnly op) :
    TsQueue.PromiseQueue.headCacheInv
      (TsQueue.PromiseQueue.runPOps TsQueue.PromiseQueue.new ops) ∧
    (TsQueue.PromiseQueue.runPOps TsQueue.PromiseQueue.new ops)._fifo = true := by
  have hinv0 : TsQueue.PromiseQueue.headCacheInv
      (TsQueue.PromiseQueue.new : TsQueue.PromiseQueue β ε α) := by
    intro hc
    exact absurd hc (by simp [TsQueue.PromiseQueue.new])
  have h := TsQueue.PromiseQueue.runPOps_fifo_inv ops TsQueue.PromiseQueue.new
    rfl hinv0 hops
  exact ⟨h.2, h.1⟩

def c1ops : List (TsQueue.PromiseQueue.POp Nat Nat Nat) :=
  [TsQueue.PromiseQueue.POp.addP 0 (fun _ => Except.ok 7) [],
    TsQueue.PromiseQueue.POp.peekP]

/-- Witness for C1 (amended): the run `add(f); peek()` keeps the invariant. -/
theorem claim1_witness :
    (∀ op ∈ c1ops, TsQueue.PromiseQueue.FifoOnly op) ∧
    TsQueue.PromiseQueue.headCacheInv
      (TsQueue.PromiseQueue.runPOps TsQueue.PromiseQueue.new c1ops) := by
  have hops : ∀ op ∈ c1ops, TsQueue.PromiseQueue.FifoOnly op := by
    intro op hop
    fin_cases hop <;> exact trivial
  exact ⟨hops, (claim1_amended_head_cache_invariant c1ops hops).1⟩

def c1item1 : TsQueue.WorkItem Nat Nat Nat := ⟨1, fun _ => Except.ok 8, []⟩

/-- The run `add(f); add(g); peek(); useFILO()`: `peek` caches the FIFO
head's outcome, then the mode switch moves the head to the other entry. -/
def c1runSwitch : TsQueue.PromiseQueue Nat Nat Nat :=
  ((((TsQueue.PromiseQueue.new).add 0 (fun _ => Except.ok 7) []).add 1
    (fun _ => Except.ok 8) []).peek).st.useFILO

/-- The run `useFILO(); add(f); peek(); add(g)`: `peek` caches the FILO
head's outcome, then the `add` makes the new entry the FILO head. -/
def c1runFiloAdd : TsQueue.PromiseQueue Nat Nat Nat :=
  (((((TsQueue.PromiseQueue.new).useFILO).add 0
    (fun _ => Except.ok 7) []).peek).st.add 1 (fun _ => Except.ok 8) [])

/-- Counterexample to C1 as stated: three reachable states violate the
invariant.  After `add; peek; batch(1)` the cache is still present though
the head entry was removed and the queue is empty; after
`add; add; peek; useFILO` and after `useFILO; add; peek; add` the cache is
present but holds the outcome `7` of the old head while the current head
entry evaluates to `8`. -/
theorem claim1_counterexample :
    (staleCacheRun._cached = true ∧ staleCacheRun._array = [] ∧
      ¬ TsQueue.PromiseQueue.headCacheInv staleCacheRun) ∧
    (c1runSwitch._cached = true ∧
      ¬ TsQueue.PromiseQueue.headCacheInv c1runSwitch) ∧
    (c1runFiloAdd._cached = true ∧
      ¬ TsQueue.PromiseQueue.headCacheInv c1runFiloAdd) := by
  refine ⟨⟨rfl, rfl, fun h => ?_⟩, ⟨rfl, fun h => ?_⟩, ⟨rfl, fun h => ?_⟩⟩
  · obtain ⟨it, hget, _⟩ := h rfl
    rw [show staleCacheRun._array = [] from rfl] at hget
    simp at hget
  · obtain ⟨it, hget, hcorr⟩ := h rfl
    have hit : it = c1item1 := (Option.some.inj ((rfl :
      c1runSwitch._array.get? c1runSwitch.nextIndex =
        some c1item1).symm.trans hget)).symm
    rcases hcorr with ⟨v, hres, herr, hinv⟩ | ⟨hres, e, herr, hinv⟩
    · have hv7 : v = 7 := (Option.some.inj ((rfl :
        c1runSwitch._result = some (7 : Nat)).symm.trans hres)).symm
      rw [hit, hv7] at hinv
      have h87 : Except.ok (8 : Nat) = Except.ok (7 : Nat) :=
        (rfl : TsQueue.invoke c1item1 = Except.ok 8).symm.trans hinv
      exact absurd (Except.ok.inj h87) (by omega)
    · exact Option.noConfusion ((rfl :
        c1runSwitch._result = some (7 : Nat)).symm.trans hres)
  · obtain ⟨it, hget, hcorr⟩ := h rfl
    have hit : it = c1item1 := (Option.some.inj ((rfl :
      c1runFiloAdd._array.get? c1runFiloAdd.nextIndex =
        some c1item1).symm.trans hget)).symm
    rcases hcorr with ⟨v, hres, herr, hinv⟩ | ⟨hres, e, herr, hinv⟩
    · have hv7 : v = 7 := (Option.some.inj ((rfl :
        c1runFiloAdd._result = some (7 : Nat)).symm.trans hres)).symm
      rw [hit, hv7] at hinv
      have h87 : Except.ok (8 : Nat) = Except.ok (7 : Nat) :=
        (rfl : TsQueue.invoke c1item1 = Except.ok 8).symm.trans hinv
      exact absurd (Except.ok.inj h87) (by omega)
    · exact Option.noConfusion ((rfl :
        c1runFiloAdd._result = some (7 : Nat)).symm.trans hres)

/-- The run `add(f7); await peek(); await batch(1); add(f8)`: `peek` caches
the outcome `7`, `batch(1)` removes that entry without invalidating the
cache, and the final `add` makes the queue non-empty again with head entry
`c1item1` (whose callable resolves to `8`) under the stale cache. -/
def c2staleRun : TsQueue.PromiseQueue Nat Nat Nat :=
  (((((TsQueue.PromiseQueue.new).add 0
    (fun _ => Except.ok 7) []).peek).st.batch 1).st.add 1
    (fun _ => Except.ok 8) [])

/-- Counterexample to C2 as stated: `c2staleRun` is a reachable state with
a non-empty entry list whose head entry `c1item1` evaluates to `8`, yet a
`peek` (and likewise `element`) performs zero invocations (empty trace),
returns the stale cached outcome `7` of the already-removed entry, and
leaves the state unchanged — so every further consecutive read does the
same and the head's callable is never invoked, refuting "invokes the head
entry's callable exactly once (on the first such call)". -/
theorem claim2_counterexample :
    c2staleRun._array.length = 1 ∧
    c2staleRun._array.get? c2staleRun.nextIndex = some c1item1 ∧
    TsQueue.invoke c1item1 = Except.ok 8 ∧
    c2staleRun.peek = ⟨Except.ok (some 7), c2staleRun, []⟩ ∧
    c2staleRun.element = ⟨Except.ok 7, c2staleRun, []⟩ ∧
    ¬ (c2staleRun.peek).out = Except.ok (some 8) := by
  refine ⟨rfl, rfl, rfl, rfl, rfl, fun h => ?_⟩
  exact absurd (Option.some.inj (Except.ok.inj
    ((rfl : (c2staleRun.peek).out = Except.ok (some 7)).symm.trans h)))
    (by omega)
